import Mathlib

/-!
# Verification of the cochleogram geometric core

This file gives a shallow embedding of the geometric/algorithmic engine of the
cochleogram repository (`cochleogram/model.py` and `cochleogram/util.py`) and
proves or refutes the specification claims about it.

Modelling conventions:
* Python floats that only ever hold finite values are idealised as rationals
  (`ℚ`); where NaN/infinity handling matters (`set_state`, `set_nodes`) the
  values are modelled by the `PyFloat` type below.
* `np.argmin` over Euclidean distances is modelled as the first index of the
  minimum of the *squared* distances: `x ↦ √x` is strictly monotone, so the
  argmin is unchanged, and comparisons `√d < t` for `0 ≤ t` become `d < t²`.
* Operations that raise in Python on the modelled path (index out of range in
  `list.pop`, `np.argmin` of an empty array, numpy broadcast mismatch) are
  modelled with `Option`, returning `none` where Python raises.
* The SciPy spline fit itself (`splprep`/`splev`) is floating-point numerical
  code; the guard logic around it is embedded exactly, and the dense sampled
  curve it produces is passed around as an explicit list of sample points.
-/

namespace Cochleogram

/-- A Python float value as stored in the `x`/`y` lists of `Points`
(`model.py`): NaN, one of the two infinities, or a finite value (idealised as
a rational). -/
inductive PyFloat where
  | nan : PyFloat
  | inf : PyFloat
  | ninf : PyFloat
  | val (q : ℚ) : PyFloat
  deriving DecidableEq, Repr

/-- `np.isnan` on a `PyFloat`. -/
def PyFloat.isnan : PyFloat → Bool
  | .nan => true
  | _ => false

/-- `np.isfinite` on a `PyFloat`: true exactly for finite values. -/
def PyFloat.isfinite : PyFloat → Bool
  | .val _ => true
  | _ => false

/-- An exclusion-interval anchor as stored in `Points.exclude`: a pair of
coordinate pairs. -/
abbrev AnchorF := (PyFloat × PyFloat) × (PyFloat × PyFloat)

/-- The observable state of a `Points` object (`model.py`): coordinate lists
`x` and `y`, the `origin` index (an `Int()` member in the source) and the
exclusion anchors. -/
structure PointsF where
  x : List PyFloat
  y : List PyFloat
  origin : ℤ
  exclude : List AnchorF
  deriving DecidableEq, Repr

/-- A state dictionary as consumed by `Points.set_state`: keys `x` and `y`
are always read, while `exclude` and `origin` are read with
`state.get(key, default)` and may be missing (`none`). -/
structure PointsStateD where
  x : List PyFloat
  y : List PyFloat
  origin : Option ℤ
  exclude : Option (List AnchorF)
  deriving DecidableEq, Repr

/-- `Points.get_state` (`model.py` lines 211-217): returns all four fields. -/
def get_state (p : PointsF) : PointsStateD :=
  { x := p.x, y := p.y, origin := some p.origin, exclude := some p.exclude }

/-- `Points.set_state` (`model.py` lines 219-227).  The mask
`m = np.isnan(x) | np.isnan(y)` drops exactly the pairs where either entry is
NaN; computing it requires `x` and `y` of equal length (numpy raises a
broadcast error otherwise, modelled as `none`).  `exclude` and `origin` fall
back to `[]` and `0` when missing. -/
def set_state (s : PointsStateD) : Option PointsF :=
  if s.x.length = s.y.length then
    let kept := (s.x.zip s.y).filter fun ab => !(ab.1.isnan || ab.2.isnan)
    some { x := kept.map Prod.fst, y := kept.map Prod.snd,
           origin := s.origin.getD 0, exclude := s.exclude.getD [] }
  else none

/-- `Points.set_nodes` (`model.py` lines 103-119), two-argument form.  When
`len(x) == 0` the lists are stored unmasked; otherwise the same NaN mask as in
`set_state` is applied (equal lengths required for broadcasting). -/
def set_nodes (x y : List PyFloat) : Option (List PyFloat × List PyFloat) :=
  if x.length = 0 then some (x, y)
  else if x.length = y.length then
    let kept := (x.zip y).filter fun ab => !(ab.1.isnan || ab.2.isnan)
    some (kept.map Prod.fst, kept.map Prod.snd)
  else none

/-! ## The geometric core over ℚ -/

/-- A 2-D point. -/
abbrev Pt := ℚ × ℚ

/-- Squared Euclidean distance between two points.  The source compares
`np.sqrt`-distances; since `√` is strictly monotone, first-minimum indices and
threshold comparisons against `t ≥ 0` transfer to squared distances. -/
def dist2 (p q : Pt) : ℚ := (p.1 - q.1) ^ 2 + (p.2 - q.2) ^ 2

/-- `np.argmin`: first index of the minimum of a list.  On the empty list
`np.argmin` raises `ValueError`; the model returns the junk value `0` there
and every use below guards on nonemptiness. -/
def argminIdx : List ℚ → ℕ
  | [] => 0
  | a :: t =>
    if t = [] then 0
    else if a ≤ t.getD (argminIdx t) 0 then 0 else argminIdx t + 1

/-- The greedy nearest-neighbour loop of `Points.get_nodes` (`model.py` lines
62-79): repeatedly `pop` the node at index `i` (raising `IndexError`, i.e.
`none`, if `i` is out of range), append it to the path, and continue with the
index of the nearest remaining node (`np.argmin` of the Euclidean distances,
equivalently of the squared distances); when at most one node remains, the
remainder is appended via `path.extend(nodes)`. -/
def greedy_path (nodes : List Pt) (i : ℕ) : Option (List Pt) :=
  if nodes.length ≤ 1 then some nodes
  else if h2 : i < nodes.length then
    let n := nodes.get ⟨i, h2⟩
    let rest := nodes.eraseIdx i
    match greedy_path rest (argminIdx (rest.map (fun p => dist2 p n))) with
    | some tail => some (n :: tail)
    | none => none
  else none
termination_by nodes.length
decreasing_by
  rw [List.length_eraseIdx, if_pos h2]
  omega

/-- `Points.get_nodes`: the nodes are `list(zip(self.x, self.y))`; the result
is `list(zip(*path))`, i.e. the pair (list of x's, list of y's) of the path
(the `[(), ()]` returned for an empty path is `([], [])`). -/
def get_nodes (x y : List ℚ) (origin : ℕ) : Option (List ℚ × List ℚ) :=
  (greedy_path (x.zip y) origin).map fun path =>
    (path.map Prod.fst, path.map Prod.snd)

/-- The outcome of `Points.interpolate` / `Points.length` (`model.py` lines
85-101): both call `get_nodes` and, when the path holds at most 3 points
(`len(nodes[0]) <= 3`), return a sentinel — `([], [])` for `interpolate`,
`np.nan` for `length` — and otherwise fit a parametric spline through the
path nodes with `scipy.interpolate.splprep`.  The floating-point fit itself
is outside the model; `fitted` records the node lists handed to `splprep`. -/
inductive SplineFit where
  | empty : SplineFit
  | fitted (nodes : List ℚ × List ℚ) : SplineFit
  deriving DecidableEq, Repr

/-- Guard structure of `Points.interpolate` (`model.py` lines 85-92):
`SplineFit.empty` models the `return [], []` sentinel. -/
def interpolate_guard (x y : List ℚ) (origin : ℕ) : Option SplineFit :=
  (get_nodes x y origin).map fun nodes =>
    if nodes.1.length ≤ 3 then .empty else .fitted nodes

/-- Guard structure of `Points.length` (`model.py` lines 94-101):
`SplineFit.empty` models the `return np.nan` sentinel. -/
def length_guard (x y : List ℚ) (origin : ℕ) : Option SplineFit :=
  (get_nodes x y origin).map fun nodes =>
    if nodes.1.length ≤ 3 then .empty else .fitted nodes

/-- The point-set state seen by the geometric editing operations: coordinate
lists, origin index and exclusion anchors, coordinates idealised as
rationals. -/
structure PointsQ where
  x : List ℚ
  y : List ℚ
  origin : ℕ
  exclude : List (Pt × Pt)
  deriving DecidableEq, Repr

/-- `util.argnearest(x, y, xa, ya)` (`util.py` lines 50-54): first index of
the curve sample nearest to the query point (squared distances, see
`argminIdx`). -/
def argnearest (p : Pt) (curve : List Pt) : ℕ :=
  argminIdx (curve.map fun c => dist2 c p)

/-- `Points.find_node(x, y, hit_threshold)` (`model.py` lines 137-144).
`none` models the `ValueError` raised when there are no nodes (`np.argmin`
of an empty array) or when the nearest node is at Euclidean distance
≥ `hit_threshold`; the source's `d[i] < hit_threshold` on square-rooted
distances is `dist2 < t²` for a positive threshold `t`. -/
def find_node (p : PointsQ) (qx qy t : ℚ) : Option ℕ :=
  let d := (p.x.zip p.y).map fun n => dist2 n (qx, qy)
  if d = [] then none
  else if d.getD (argminIdx d) 0 < t ^ 2 then some (argminIdx d) else none

/-- `Points.nearest_point(x, y)` (`model.py` lines 158-164), with the dense
interpolated curve passed explicitly; `none` when the curve is empty
(`np.argmin` raises). -/
def nearest_point (curve : List Pt) (q : Pt) : Option Pt :=
  if curve = [] then none
  else some (curve.getD (argnearest q curve) (0, 0))

/-- `Points.update_exclude` (`model.py` lines 172-184), with the interpolated
curve passed explicitly: every interval is re-snapped through
`nearest_point`; intervals whose endpoints collapse (`s == e`) or whose
re-snap raises (empty curve) are silently dropped (`except: pass`). -/
def update_exclude (curve : List Pt) (ex : List (Pt × Pt)) : List (Pt × Pt) :=
  ex.filterMap fun se =>
    match nearest_point curve se.1, nearest_point curve se.2 with
    | some s, some e => if s = e then none else some (s, e)
    | _, _ => none

/-- `Points.add_node(x, y, hit_threshold)` (`model.py` lines 121-128): if
some node is within the hit threshold the call does nothing; otherwise the
point is appended and the exclusions are re-snapped against the interpolated
curve of the *new* node set (passed here as `curve`).  The
`np.isfinite` guard of the source is outside this model: coordinates are
rationals, hence always finite. -/
def add_node (curve : List Pt) (p : PointsQ) (qx qy t : ℚ) : PointsQ :=
  if (find_node p qx qy t).isSome then p
  else { x := p.x ++ [qx], y := p.y ++ [qy], origin := p.origin,
         exclude := update_exclude curve p.exclude }

/-! ## Interval merging (`util.smooth_epochs`) and exclusion bookkeeping -/

/-- Whether some interval of the list covers the point `q` (closed
endpoints). -/
def covers {α : Type} [LinearOrder α] (l : List (α × α)) (q : α) : Prop :=
  ∃ p ∈ l, p.1 ≤ q ∧ q ≤ p.2

instance {α : Type} [LinearOrder α] (l : List (α × α)) (q : α) :
    Decidable (covers l q) :=
  inferInstanceAs (Decidable (∃ p ∈ l, p.1 ≤ q ∧ q ≤ p.2))

/-- The inner while-loop of `util.smooth_epochs` (`util.py` lines 387-393):
starting from the current run `[lb, ub]`, absorb each following row while its
start is ≤ the current end, *setting* (not max-ing) the current end to that
row's end; when a row does not overlap, emit the run and start a new one at
that row. -/
def mergeAbsorb {α : Type} [LinearOrder α] (lb ub : α) :
    List (α × α) → List (α × α)
  | [] => [(lb, ub)]
  | (s, e) :: rest =>
    if s ≤ ub then mergeAbsorb lb e rest else (lb, ub) :: mergeAbsorb s e rest

/-- The outer loop of `util.smooth_epochs`: take the first row as the current
run and scan the remainder. -/
def mergeLoop {α : Type} [LinearOrder α] : List (α × α) → List (α × α)
  | [] => []
  | (lb, ub) :: rest => mergeAbsorb lb ub rest

/-- `util.smooth_epochs` (`util.py` lines 369-394).  `epochs.sort(axis=0)`
sorts each *column* of the `(n, 2)` array independently and in place, so the
loop scans the i-th smallest start paired with the i-th smallest end; the
empty input is returned unchanged (also the empty output of `mergeLoop`). -/
def smooth_epochs {α : Type} [LinearOrder α] (epochs : List (α × α)) :
    List (α × α) :=
  mergeLoop (((epochs.map Prod.fst).insertionSort (· ≤ ·)).zip
    ((epochs.map Prod.snd).insertionSort (· ≤ ·)))

/-- Sorted and non-overlapping, non-touching: each interval ends strictly
before the next begins. -/
def separated {α : Type} [LinearOrder α] (l : List (α × α)) : Prop :=
  l.Chain' fun p q => p.2 < q.1

/-- `Points.simplify_exclude` (`model.py` lines 198-209), with the dense
interpolated curve passed explicitly: snap both anchors of every stored
interval to curve-sample indices with `util.argnearest`, order each index
pair, merge the index ranges with `util.smooth_epochs`, and rebuild the
stored anchors as the curve points at the merged range endpoints. -/
def simplify_exclude (curve : List Pt) (ex : List (Pt × Pt)) : List (Pt × Pt) :=
  (smooth_epochs (ex.map fun se =>
      (min (argnearest se.1 curve) (argnearest se.2 curve),
       max (argnearest se.1 curve) (argnearest se.2 curve)))).map
    fun r => (curve.getD r.1 (0, 0), curve.getD r.2 (0, 0))

/-- The membership test of `Points.remove_exclude`: the snapped index range
`[min(si, ei), max(si, ei)]` of the stored interval contains the index
`pidx`. -/
def exclude_contains (curve : List Pt) (pidx : ℕ) (se : Pt × Pt) : Bool :=
  decide (min (argnearest se.1 curve) (argnearest se.2 curve) ≤ pidx) &&
    decide (pidx ≤ max (argnearest se.1 curve) (argnearest se.2 curve))

/-- Remove the first element satisfying `f` (the `pop`-and-`break` loop of
`Points.remove_exclude`). -/
def remove_first {β : Type} (f : β → Bool) : List β → List β
  | [] => []
  | a :: rest => if f a then rest else a :: remove_first f rest

/-- `Points.remove_exclude(x, y)` (`model.py` lines 186-196), curve explicit:
delete the first stored interval whose snapped index range contains the index
of the curve sample nearest to the query point, if any. -/
def remove_exclude (curve : List Pt) (q : Pt) (ex : List (Pt × Pt)) :
    List (Pt × Pt) :=
  remove_first (exclude_contains curve (argnearest q curve)) ex

/-! ## Tile coordinate transforms -/

/-- The geometric metadata of a `Tile` (`model.py`): the per-axis physical
origin `info["lower"]` and voxel size `info["voxel_size"]`, as (x, y, z)
triples. -/
structure TileInfo where
  lower : ℚ × ℚ × ℚ
  voxel : ℚ × ℚ × ℚ
  deriving DecidableEq, Repr

/-- `Tile.to_coords(x, y, z)` (`model.py` lines 266-276):
`points = (indices * voxel_size) + lower`, componentwise. -/
def to_coords3 (t : TileInfo) (i j k : ℚ) : ℚ × ℚ × ℚ :=
  (i * t.voxel.1 + t.lower.1, j * t.voxel.2.1 + t.lower.2.1,
    k * t.voxel.2.2 + t.lower.2.2)

/-- `Tile.to_coords(x, y)` with `z = None`: the z *index* column is filled
with `lower[-1]` (`np.full_like(x, lower[-1])`) and only the x/y coordinate
columns are returned (`points[:, :2]`). -/
def to_coords2 (t : TileInfo) (i j : ℚ) : ℚ × ℚ :=
  ((to_coords3 t i j t.lower.2.2).1, (to_coords3 t i j t.lower.2.2).2.1)

/-- `Tile.to_indices(x, y, z)` (`model.py` lines 278-288):
`indices = (points - lower) / voxel_size`, componentwise. -/
def to_indices3 (t : TileInfo) (px py pz : ℚ) : ℚ × ℚ × ℚ :=
  ((px - t.lower.1) / t.voxel.1, (py - t.lower.2.1) / t.voxel.2.1,
    (pz - t.lower.2.2) / t.voxel.2.2)

/-- `Tile.to_indices(x, y)` with `z = None`: the z *point* column is filled
with `lower[-1]` and only the x/y index columns are returned. -/
def to_indices2 (t : TileInfo) (px py : ℚ) : ℚ × ℚ :=
  ((to_indices3 t px py t.lower.2.2).1, (to_indices3 t px py t.lower.2.2).2.1)

/-! ## Tiles and `Piece.merge_tiles` -/

/-- A `Tile` as constructed by `Tile.__init__` (`model.py` lines 239-253):
per-axis physical lower corner `info["lower"]`, voxel size
`info["voxel_size"]`, the image's pixel counts (`image.shape[:3]`) and the
channel count (`image.shape[-1]`). -/
structure TileM where
  lower : Fin 3 → ℚ
  voxel : Fin 3 → ℚ
  shapePx : Fin 3 → ℕ
  nChannels : ℕ

/-- The even slots `extent[::2]` of the extent stored by `Tile.__init__`:
the lower bound per axis. -/
def extent_lb (t : TileM) (a : Fin 3) : ℚ := t.lower a

/-- The odd slots `extent[1::2]`: upper bound per axis,
`ub = lb + px * voxel` (`model.py` lines 247-252). -/
def extent_ub (t : TileM) (a : Fin 3) : ℚ :=
  t.lower a + (t.shapePx a : ℚ) * t.voxel a

/-- `merged_lb` in `Piece.merge_tiles` (`model.py` line 432): per-axis
minimum of the tile extents' lower bounds over all tiles `t0 :: ts`. -/
def merged_lb (t0 : TileM) (ts : List TileM) (a : Fin 3) : ℚ :=
  (ts.map (fun t => extent_lb t a)).foldl min (extent_lb t0 a)

/-- `merged_ub` in `Piece.merge_tiles` (`model.py` line 433): per-axis
maximum of the tile extents' upper bounds. -/
def merged_ub (t0 : TileM) (ts : List TileM) (a : Fin 3) : ℚ :=
  (ts.map (fun t => extent_ub t a)).foldl max (extent_ub t0 a)

/-- The geometric content of `Piece.merge_tiles` (`model.py` lines 431-461):
pixel bounds `lb_pixels = floor(merged_lb / voxel)`,
`ub_pixels = ceil(merged_ub / voxel)` at the first tile's voxel size, a
composite image of shape `ub_pixels - lb_pixels` (plus the first tile's
channel count), and a returned `Tile` whose `info["lower"]` is the unrounded
`merged_lb`; its extent is rederived by `Tile.__init__`. -/
def merge_tiles (t0 : TileM) (ts : List TileM) : TileM :=
  { lower := fun a => merged_lb t0 ts a
    voxel := t0.voxel
    shapePx := fun a =>
      (⌈merged_ub t0 ts a / t0.voxel a⌉ - ⌊merged_lb t0 ts a / t0.voxel a⌋).toNat
    nChannels := t0.nChannels }

/-- Modelled from the spec for the C8 comparison: the lower endpoint of "the
union of all source tile extents rounded outward to whole pixels at that
voxel size". -/
def spec_rounded_union_lb (t0 : TileM) (ts : List TileM) (a : Fin 3) : ℚ :=
  t0.voxel a * ⌊merged_lb t0 ts a / t0.voxel a⌋

/-- Modelled from the spec for the C8 comparison: the upper endpoint of the
outward-rounded union extent. -/
def spec_rounded_union_ub (t0 : TileM) (ts : List TileM) (a : Fin 3) : ℚ :=
  t0.voxel a * ⌈merged_ub t0 ts a / t0.voxel a⌉

/-! ## Basic list lemmas -/

theorem argminIdx_lt_length (l : List ℚ) (h : l ≠ []) : argminIdx l < l.length := by
  induction l with
  | nil => exact absurd rfl h
  | cons a t ih =>
    rw [argminIdx]
    by_cases ht : t = []
    · simp [ht]
    · have hlen := ih ht
      rw [if_neg ht]
      by_cases hle : a ≤ t.getD (argminIdx t) 0
      · rw [if_pos hle]
        simp
      · rw [if_neg hle]
        simp only [List.length_cons]
        omega

theorem argminIdx_min (l : List ℚ) (j : ℕ) (hj : j < l.length) :
    l.getD (argminIdx l) 0 ≤ l.getD j 0 := by
  induction l generalizing j with
  | nil => simp at hj
  | cons a t ih =>
    rw [argminIdx]
    by_cases ht : t = []
    · subst ht
      match j with
      | 0 => simp
      | j + 1 => simp at hj
    · by_cases hle : a ≤ t.getD (argminIdx t) 0
      · rw [if_neg ht, if_pos hle]
        match j with
        | 0 => simp
        | j + 1 =>
          simp only [List.getD_cons_zero, List.getD_cons_succ]
          exact le_trans hle (ih j (by simpa using hj))
      · rw [if_neg ht, if_neg hle]
        match j with
        | 0 =>
          simp only [List.getD_cons_zero, List.getD_cons_succ]
          exact le_of_lt (lt_of_not_le hle)
        | j + 1 =>
          simp only [List.getD_cons_succ]
          exact ih j (by simpa using hj)

theorem zip_map_fst_snd {α β : Type} (l : List (α × β)) :
    (l.map Prod.fst).zip (l.map Prod.snd) = l := by
  induction l with
  | nil => rfl
  | cons a t ih => simp [ih]

theorem perm_cons_eraseIdx {α : Type} (l : List α) (i : ℕ) (h : i < l.length) :
    List.Perm (l.get ⟨i, h⟩ :: l.eraseIdx i) l := by
  induction l generalizing i with
  | nil => simp at h
  | cons a t ih =>
    match i with
    | 0 => simp
    | i + 1 =>
      have hi : i < t.length := by simpa using h
      have hswap : List.Perm ((a :: t).get ⟨i + 1, h⟩ :: (a :: t).eraseIdx (i + 1))
          (a :: t.get ⟨i, hi⟩ :: t.eraseIdx i) := by
        simpa using (List.Perm.swap (t.get ⟨i, hi⟩) a (t.eraseIdx i)).symm
      exact hswap.trans ((ih i hi).cons a)

theorem greedy_arg_valid (rest : List Pt) (n : Pt) :
    rest.length ≤ 1 ∨ argminIdx (List.map (fun p => dist2 p n) rest) < rest.length := by
  rcases le_or_lt rest.length 1 with hr | hr
  · exact Or.inl hr
  · have hne : rest ≠ [] := by
      intro hcon
      rw [hcon] at hr
      simp at hr
    have h3 := argminIdx_lt_length (List.map (fun p => dist2 p n) rest)
      (by simpa using hne)
    rw [List.length_map] at h3
    exact Or.inr h3

/-- Every `some` result of the greedy loop is a permutation of its input
node list. -/
theorem greedy_path_perm (nodes : List Pt) (i : ℕ)
    (h : nodes.length ≤ 1 ∨ i < nodes.length) :
    ∃ path, greedy_path nodes i = some path ∧ List.Perm path nodes := by
  induction nodes, i using greedy_path.induct with
  | case1 nodes i h1 =>
    exact ⟨nodes, by rw [greedy_path, if_pos h1], List.Perm.refl _⟩
  | case2 nodes i h1 h2 n rest tail htail ih =>
    obtain ⟨path, hpath, hperm⟩ := ih (greedy_arg_valid rest n)
    rw [htail] at hpath
    obtain rfl : tail = path := by injection hpath
    refine ⟨n :: tail, ?_, ?_⟩
    · rw [greedy_path, if_neg h1, dif_pos h2]
      simp only [htail]
    · exact (hperm.cons n).trans (perm_cons_eraseIdx nodes i h2)
  | case3 nodes i h1 h2 n rest hnone ih =>
    obtain ⟨path, hpath, _⟩ := ih (greedy_arg_valid rest n)
    rw [hnone] at hpath
    exact absurd hpath (by simp)
  | case4 nodes i h1 h2 =>
    rcases h with h | h
    · exact absurd h h1
    · exact absurd h h2

/-- C1: for every point set (with the origin index in range whenever there
are at least two points, as maintained by the editing operations), the path
built by `Points.get_nodes` is a permutation of the input points: its length
equals the input length and every input point appears exactly as often as in
the input; with 0 points the returned path is empty and with 1 point it is
the single-element path. -/
theorem get_nodes_is_permutation (x y : List ℚ) (origin : ℕ)
    (h : (x.zip y).length ≤ 1 ∨ origin < (x.zip y).length) :
    ∃ path, greedy_path (x.zip y) origin = some path ∧
      get_nodes x y origin = some (path.map Prod.fst, path.map Prod.snd) ∧
      List.Perm path (x.zip y) ∧
      path.length = (x.zip y).length ∧
      (∀ p : Pt, path.countP (fun q => q = p) = (x.zip y).countP (fun q => q = p)) ∧
      (x.zip y = [] → get_nodes x y origin = some ([], [])) ∧
      (∀ p : Pt, x.zip y = [p] → get_nodes x y origin = some ([p.1], [p.2])) := by
  obtain ⟨path, hsome, hperm⟩ := greedy_path_perm (x.zip y) origin h
  refine ⟨path, hsome, ?_, hperm, hperm.length_eq, fun p => hperm.countP_eq _, ?_, ?_⟩
  · rw [get_nodes, hsome]
    rfl
  · intro hnil
    rw [hnil] at hperm
    have : path = [] := List.Perm.eq_nil hperm
    rw [get_nodes, hsome, this]
    rfl
  · intro p hp
    rw [hp] at hperm
    have : path = [p] := List.Perm.eq_singleton hperm
    rw [get_nodes, hsome, this]
    rfl

/-- C2 counterexample: the claim keys the sentinel on *distinct* points, but
the source guard is `len(nodes[0]) <= 3`, a count with multiplicity.  The
4-point set (0,0), (0,0), (1,0), (0,1) has only 3 distinct points, yet
`interpolate` does not return the empty sentinel (it proceeds to the spline
fit), and `length` does not return NaN. -/
theorem interpolate_distinct_counterexample :
    ([(0 : ℚ), 0, 1, 0].zip [(0 : ℚ), 0, 0, 1]).dedup.length = 3 ∧
    interpolate_guard [0, 0, 1, 0] [0, 0, 0, 1] 0 ≠ some SplineFit.empty ∧
    length_guard [0, 0, 1, 0] [0, 0, 0, 1] 0 ≠ some SplineFit.empty := by
  refine ⟨by decide, ?_, ?_⟩ <;>
    simp [interpolate_guard, length_guard, get_nodes, greedy_path, argminIdx, dist2]

/-- C2 (amended): the sentinel is keyed on the number of points counted with
multiplicity: with at most 3 points (distinct or not) `interpolate` returns
the empty pair and `length` returns NaN rather than raising, and with 4 or
more points (distinct or not) both proceed to the spline fit on the greedy
path through all points. -/
theorem interpolate_guard_on_count (x y : List ℚ) (origin : ℕ)
    (h : (x.zip y).length ≤ 1 ∨ origin < (x.zip y).length) :
    ((x.zip y).length ≤ 3 →
      interpolate_guard x y origin = some SplineFit.empty ∧
      length_guard x y origin = some SplineFit.empty) ∧
    (3 < (x.zip y).length →
      ∃ path, greedy_path (x.zip y) origin = some path ∧
        interpolate_guard x y origin =
          some (SplineFit.fitted (path.map Prod.fst, path.map Prod.snd)) ∧
        length_guard x y origin =
          some (SplineFit.fitted (path.map Prod.fst, path.map Prod.snd))) := by
  obtain ⟨path, hsome, hperm⟩ := greedy_path_perm (x.zip y) origin h
  have hlen : path.length = (x.zip y).length := hperm.length_eq
  have hget : get_nodes x y origin = some (path.map Prod.fst, path.map Prod.snd) := by
    rw [get_nodes, hsome]
    rfl
  constructor
  · intro hle
    have hcond : path.length ≤ 3 := by omega
    constructor
    · rw [interpolate_guard, hget]
      simp [hcond]
    · rw [length_guard, hget]
      simp [hcond]
  · intro hgt
    have hcond : ¬ path.length ≤ 3 := by omega
    refine ⟨path, hsome, ?_, ?_⟩
    · rw [interpolate_guard, hget]
      simp [hcond]
    · rw [length_guard, hget]
      simp [hcond]

/-- Witness for C2 (amended) at a concrete 3-point input (sentinel branch). -/
theorem interpolate_guard_on_count_witness :
    (([(0 : ℚ), 1, 2].zip [(0 : ℚ), 0, 0]).length ≤ 3 →
      interpolate_guard [0, 1, 2] [0, 0, 0] 0 = some SplineFit.empty ∧
      length_guard [0, 1, 2] [0, 0, 0] 0 = some SplineFit.empty) ∧
    (3 < ([(0 : ℚ), 1, 2].zip [(0 : ℚ), 0, 0]).length →
      ∃ path, greedy_path ([(0 : ℚ), 1, 2].zip [(0 : ℚ), 0, 0]) 0 = some path ∧
        interpolate_guard [0, 1, 2] [0, 0, 0] 0 =
          some (SplineFit.fitted (path.map Prod.fst, path.map Prod.snd)) ∧
        length_guard [0, 1, 2] [0, 0, 0] 0 =
          some (SplineFit.fitted (path.map Prod.fst, path.map Prod.snd))) :=
  interpolate_guard_on_count [0, 1, 2] [0, 0, 0] 0 (by decide)

theorem foldl_min_le_init (l : List ℚ) (b : ℚ) : l.foldl min b ≤ b := by
  induction l generalizing b with
  | nil => simp
  | cons a t ih => exact le_trans (ih (min b a)) (min_le_left b a)

theorem init_le_foldl_max (l : List ℚ) (b : ℚ) : b ≤ l.foldl max b := by
  induction l generalizing b with
  | nil => simp
  | cons a t ih => exact le_trans (le_max_left b a) (ih (max b a))

/-- C8 counterexample: a single tile with lower corner 1/2, voxel size 1 and
one pixel per axis has extent [1/2, 3/2]; the union rounded outward to whole
pixels is [0, 2], but `merge_tiles` returns a tile anchored at the *unrounded*
lower bound 1/2 with extent [1/2, 5/2] ≠ [0, 2]. -/
theorem merge_tiles_extent_counterexample :
    extent_lb (merge_tiles ⟨fun _ => 1/2, fun _ => 1, fun _ => 1, 1⟩ []) 0 = 1/2 ∧
    extent_ub (merge_tiles ⟨fun _ => 1/2, fun _ => 1, fun _ => 1, 1⟩ []) 0 = 5/2 ∧
    spec_rounded_union_lb ⟨fun _ => 1/2, fun _ => 1, fun _ => 1, 1⟩ [] 0 = 0 ∧
    spec_rounded_union_ub ⟨fun _ => 1/2, fun _ => 1, fun _ => 1, 1⟩ [] 0 = 2 ∧
    extent_lb (merge_tiles ⟨fun _ => 1/2, fun _ => 1, fun _ => 1, 1⟩ []) 0 ≠
      spec_rounded_union_lb ⟨fun _ => 1/2, fun _ => 1, fun _ => 1, 1⟩ [] 0 := by
  have e3 : (⌈(1 : ℚ) / 2 + 1⌉ : ℤ) = 2 := by
    rw [Int.ceil_eq_iff]
    norm_num
  have e4 : (⌊(1 : ℚ) / 2⌋ : ℤ) = 0 := by norm_num
  have h1 : extent_lb (merge_tiles ⟨fun _ => 1/2, fun _ => 1, fun _ => 1, 1⟩ []) 0
      = 1/2 := rfl
  have h2 : extent_ub (merge_tiles ⟨fun _ => 1/2, fun _ => 1, fun _ => 1, 1⟩ []) 0
      = 5/2 := by
    simp only [extent_ub, merge_tiles, merged_ub, merged_lb, extent_lb, List.map_nil,
      List.foldl_nil, Nat.cast_one, one_mul, div_one]
    rw [e3, e4, show ((2 : ℤ) - 0).toNat = 2 from rfl]
    norm_num
  have h3 : spec_rounded_union_lb ⟨fun _ => 1/2, fun _ => 1, fun _ => 1, 1⟩ [] 0
      = 0 := by
    simp only [spec_rounded_union_lb, merged_lb, extent_lb, List.map_nil,
      List.foldl_nil, div_one]
    rw [e4]
    norm_num
  have h4 : spec_rounded_union_ub ⟨fun _ => 1/2, fun _ => 1, fun _ => 1, 1⟩ [] 0
      = 2 := by
    simp only [spec_rounded_union_ub, merged_ub, extent_ub, extent_lb, List.map_nil,
      List.foldl_nil, Nat.cast_one, one_mul, div_one]
    rw [e3]
    norm_num
  refine ⟨h1, h2, h3, h4, ?_⟩
  rw [h1, h3]
  norm_num

/-- C8 (amended): for tiles sharing a (positive) voxel size, the merged
volume's extent per axis starts at the *exact* union lower bound (not rounded
to the pixel grid) and has the *length* of the union rounded outward to whole
pixels: `[m_lb, m_lb + v·(⌈m_ub/v⌉ − ⌊m_lb/v⌋)]`.  It therefore covers the
union of the source extents, and coincides with the outward-rounded union
exactly when the union lower bound is a whole-pixel multiple of the voxel
size. -/
theorem merge_tiles_extent (t0 : TileM) (ts : List TileM) (a : Fin 3)
    (hv : 0 < t0.voxel a) (_hshare : ∀ t ∈ ts, t.voxel = t0.voxel) :
    extent_lb (merge_tiles t0 ts) a = merged_lb t0 ts a ∧
    extent_ub (merge_tiles t0 ts) a = merged_lb t0 ts a +
      t0.voxel a * ((⌈merged_ub t0 ts a / t0.voxel a⌉ : ℚ) -
        (⌊merged_lb t0 ts a / t0.voxel a⌋ : ℚ)) ∧
    extent_ub (merge_tiles t0 ts) a - extent_lb (merge_tiles t0 ts) a =
      spec_rounded_union_ub t0 ts a - spec_rounded_union_lb t0 ts a ∧
    extent_lb (merge_tiles t0 ts) a ≤ merged_lb t0 ts a ∧
    merged_ub t0 ts a ≤ extent_ub (merge_tiles t0 ts) a ∧
    (t0.voxel a * (⌊merged_lb t0 ts a / t0.voxel a⌋ : ℚ) = merged_lb t0 ts a →
      extent_lb (merge_tiles t0 ts) a = spec_rounded_union_lb t0 ts a ∧
      extent_ub (merge_tiles t0 ts) a = spec_rounded_union_ub t0 ts a) := by
  have h0 : extent_lb t0 a ≤ extent_ub t0 a := by
    rw [extent_lb, extent_ub]
    have hnn : 0 ≤ (t0.shapePx a : ℚ) * t0.voxel a :=
      mul_nonneg (by positivity) (le_of_lt hv)
    linarith
  have hlbub : merged_lb t0 ts a ≤ merged_ub t0 ts a :=
    le_trans (foldl_min_le_init _ _) (le_trans h0 (init_le_foldl_max _ _))
  have hdiv : merged_lb t0 ts a / t0.voxel a ≤ merged_ub t0 ts a / t0.voxel a := by
    gcongr
  have hfc : ⌊merged_lb t0 ts a / t0.voxel a⌋ ≤ ⌈merged_ub t0 ts a / t0.voxel a⌉ :=
    le_trans (Int.floor_le_floor hdiv) (Int.floor_le_ceil _)
  have hub : extent_ub (merge_tiles t0 ts) a = merged_lb t0 ts a +
      t0.voxel a * ((⌈merged_ub t0 ts a / t0.voxel a⌉ : ℚ) -
        (⌊merged_lb t0 ts a / t0.voxel a⌋ : ℚ)) := by
    rw [extent_ub]
    show merged_lb t0 ts a +
        ((((⌈merged_ub t0 ts a / t0.voxel a⌉ -
          ⌊merged_lb t0 ts a / t0.voxel a⌋).toNat : ℕ) : ℚ)) * t0.voxel a = _
    have hge : (0 : ℤ) ≤ ⌈merged_ub t0 ts a / t0.voxel a⌉ -
        ⌊merged_lb t0 ts a / t0.voxel a⌋ := by omega
    have h2 : (((⌈merged_ub t0 ts a / t0.voxel a⌉ -
          ⌊merged_lb t0 ts a / t0.voxel a⌋).toNat : ℕ) : ℚ) =
        ((⌈merged_ub t0 ts a / t0.voxel a⌉ : ℚ) -
          (⌊merged_lb t0 ts a / t0.voxel a⌋ : ℚ)) := by
      rw [← Int.cast_natCast (R := ℚ), Int.toNat_of_nonneg hge, Int.cast_sub]
    rw [h2]
    ring
  have hceil : merged_ub t0 ts a ≤
      t0.voxel a * (⌈merged_ub t0 ts a / t0.voxel a⌉ : ℚ) := by
    have h1 : merged_ub t0 ts a / t0.voxel a ≤
        ((⌈merged_ub t0 ts a / t0.voxel a⌉ : ℤ) : ℚ) := Int.le_ceil _
    rw [div_le_iff₀ hv] at h1
    linarith
  have hfloor : t0.voxel a * (⌊merged_lb t0 ts a / t0.voxel a⌋ : ℚ) ≤
      merged_lb t0 ts a := by
    have h1 : ((⌊merged_lb t0 ts a / t0.voxel a⌋ : ℤ) : ℚ) ≤
        merged_lb t0 ts a / t0.voxel a := Int.floor_le _
    rw [le_div_iff₀ hv] at h1
    linarith
  refine ⟨rfl, hub, ?_, le_refl _, ?_, ?_⟩
  · rw [hub, extent_lb, spec_rounded_union_ub, spec_rounded_union_lb]
    show _ - merged_lb t0 ts a = _
    ring
  · rw [hub]
    linarith
  · intro hgrid
    refine ⟨?_, ?_⟩
    · rw [extent_lb, spec_rounded_union_lb]
      exact hgrid.symm
    · rw [hub, spec_rounded_union_ub]
      rw [mul_sub] at *
      linarith

/-- Witness for C8 (amended) at a concrete pair of tiles sharing voxel size 1. -/
theorem merge_tiles_extent_witness :
    extent_lb (merge_tiles ⟨fun _ => 1/2, fun _ => 1, fun _ => 1, 1⟩
        [⟨fun _ => 0, fun _ => 1, fun _ => 2, 1⟩]) 0 =
      merged_lb ⟨fun _ => 1/2, fun _ => 1, fun _ => 1, 1⟩
        [⟨fun _ => 0, fun _ => 1, fun _ => 2, 1⟩] 0 ∧
    extent_ub (merge_tiles ⟨fun _ => 1/2, fun _ => 1, fun _ => 1, 1⟩
        [⟨fun _ => 0, fun _ => 1, fun _ => 2, 1⟩]) 0 =
      merged_lb ⟨fun _ => 1/2, fun _ => 1, fun _ => 1, 1⟩
        [⟨fun _ => 0, fun _ => 1, fun _ => 2, 1⟩] 0 +
      TileM.voxel ⟨fun _ => 1/2, fun _ => 1, fun _ => 1, 1⟩ 0 *
        ((⌈merged_ub ⟨fun _ => 1/2, fun _ => 1, fun _ => 1, 1⟩
            [⟨fun _ => 0, fun _ => 1, fun _ => 2, 1⟩] 0 /
          TileM.voxel ⟨fun _ => 1/2, fun _ => 1, fun _ => 1, 1⟩ 0⌉ : ℚ) -
         (⌊merged_lb ⟨fun _ => 1/2, fun _ => 1, fun _ => 1, 1⟩
            [⟨fun _ => 0, fun _ => 1, fun _ => 2, 1⟩] 0 /
          TileM.voxel ⟨fun _ => 1/2, fun _ => 1, fun _ => 1, 1⟩ 0⌋ : ℚ)) ∧
    extent_ub (merge_tiles ⟨fun _ => 1/2, fun _ => 1, fun _ => 1, 1⟩
        [⟨fun _ => 0, fun _ => 1, fun _ => 2, 1⟩]) 0 -
      extent_lb (merge_tiles ⟨fun _ => 1/2, fun _ => 1, fun _ => 1, 1⟩
        [⟨fun _ => 0, fun _ => 1, fun _ => 2, 1⟩]) 0 =
      spec_rounded_union_ub ⟨fun _ => 1/2, fun _ => 1, fun _ => 1, 1⟩
        [⟨fun _ => 0, fun _ => 1, fun _ => 2, 1⟩] 0 -
      spec_rounded_union_lb ⟨fun _ => 1/2, fun _ => 1, fun _ => 1, 1⟩
        [⟨fun _ => 0, fun _ => 1, fun _ => 2, 1⟩] 0 ∧
    extent_lb (merge_tiles ⟨fun _ => 1/2, fun _ => 1, fun _ => 1, 1⟩
        [⟨fun _ => 0, fun _ => 1, fun _ => 2, 1⟩]) 0 ≤
      merged_lb ⟨fun _ => 1/2, fun _ => 1, fun _ => 1, 1⟩
        [⟨fun _ => 0, fun _ => 1, fun _ => 2, 1⟩] 0 ∧
    merged_ub ⟨fun _ => 1/2, fun _ => 1, fun _ => 1, 1⟩
        [⟨fun _ => 0, fun _ => 1, fun _ => 2, 1⟩] 0 ≤
      extent_ub (merge_tiles ⟨fun _ => 1/2, fun _ => 1, fun _ => 1, 1⟩
        [⟨fun _ => 0, fun _ => 1, fun _ => 2, 1⟩]) 0 ∧
    (TileM.voxel ⟨fun _ => 1/2, fun _ => 1, fun _ => 1, 1⟩ 0 *
        (⌊merged_lb ⟨fun _ => 1/2, fun _ => 1, fun _ => 1, 1⟩
            [⟨fun _ => 0, fun _ => 1, fun _ => 2, 1⟩] 0 /
          TileM.voxel ⟨fun _ => 1/2, fun _ => 1, fun _ => 1, 1⟩ 0⌋ : ℚ) =
        merged_lb ⟨fun _ => 1/2, fun _ => 1, fun _ => 1, 1⟩
          [⟨fun _ => 0, fun _ => 1, fun _ => 2, 1⟩] 0 →
      extent_lb (merge_tiles ⟨fun _ => 1/2, fun _ => 1, fun _ => 1, 1⟩
          [⟨fun _ => 0, fun _ => 1, fun _ => 2, 1⟩]) 0 =
        spec_rounded_union_lb ⟨fun _ => 1/2, fun _ => 1, fun _ => 1, 1⟩
          [⟨fun _ => 0, fun _ => 1, fun _ => 2, 1⟩] 0 ∧
      extent_ub (merge_tiles ⟨fun _ => 1/2, fun _ => 1, fun _ => 1, 1⟩
          [⟨fun _ => 0, fun _ => 1, fun _ => 2, 1⟩]) 0 =
        spec_rounded_union_ub ⟨fun _ => 1/2, fun _ => 1, fun _ => 1, 1⟩
          [⟨fun _ => 0, fun _ => 1, fun _ => 2, 1⟩] 0) :=
  merge_tiles_extent ⟨fun _ => 1/2, fun _ => 1, fun _ => 1, 1⟩
    [⟨fun _ => 0, fun _ => 1, fun _ => 2, 1⟩] 0 (by norm_num) (by
      intro t ht
      simp only [List.mem_singleton] at ht
      subst ht
      rfl)

/-- C7: `to_coords` maps voxel indices to physical coordinates as
`lower + indices * voxel_size`, and `to_indices` is its exact inverse (for
nonzero voxel sizes, which physical voxel dimensions always are): the 3-D
round trip recovers `(i, j, k)` and the 2-D round trip recovers `(i, j)`. -/
theorem to_coords_to_indices_inverse (t : TileInfo) (i j k : ℚ)
    (hx : t.voxel.1 ≠ 0) (hy : t.voxel.2.1 ≠ 0) (hz : t.voxel.2.2 ≠ 0) :
    to_coords3 t i j k =
      (t.lower.1 + i * t.voxel.1, t.lower.2.1 + j * t.voxel.2.1,
        t.lower.2.2 + k * t.voxel.2.2) ∧
    to_indices3 t (to_coords3 t i j k).1 (to_coords3 t i j k).2.1
      (to_coords3 t i j k).2.2 = (i, j, k) ∧
    to_indices2 t (to_coords2 t i j).1 (to_coords2 t i j).2 = (i, j) := by
  refine ⟨?_, ?_, ?_⟩
  · simp only [to_coords3, Prod.mk.injEq]
    refine ⟨by ring, by ring, by ring⟩
  · simp only [to_coords3, to_indices3, Prod.mk.injEq]
    refine ⟨?_, ?_, ?_⟩ <;> field_simp
  · simp only [to_coords2, to_coords3, to_indices2, to_indices3, Prod.mk.injEq]
    refine ⟨?_, ?_⟩ <;> field_simp

/-- Witness for C7 at a concrete tile and index triple. -/
theorem to_coords_to_indices_inverse_witness :
    to_coords3 ⟨(1, 2, 3), (2, 4, 5)⟩ 7 8 9 =
      ((1 : ℚ) + 7 * 2, (2 : ℚ) + 8 * 4, (3 : ℚ) + 9 * 5) ∧
    to_indices3 ⟨(1, 2, 3), (2, 4, 5)⟩ (to_coords3 ⟨(1, 2, 3), (2, 4, 5)⟩ 7 8 9).1
      (to_coords3 ⟨(1, 2, 3), (2, 4, 5)⟩ 7 8 9).2.1
      (to_coords3 ⟨(1, 2, 3), (2, 4, 5)⟩ 7 8 9).2.2 = (7, 8, 9) ∧
    to_indices2 ⟨(1, 2, 3), (2, 4, 5)⟩ (to_coords2 ⟨(1, 2, 3), (2, 4, 5)⟩ 7 8).1
      (to_coords2 ⟨(1, 2, 3), (2, 4, 5)⟩ 7 8).2 = (7, 8) :=
  to_coords_to_indices_inverse ⟨(1, 2, 3), (2, 4, 5)⟩ 7 8 9
    (by decide) (by decide) (by decide)

/-- Witness for C1 on a concrete three-point set: the greedy path from origin
0 visits (0,0), then (1,0), then (5,0). -/
theorem get_nodes_is_permutation_witness :
    ∃ path, greedy_path ([(0 : ℚ), 5, 1].zip [(0 : ℚ), 0, 0]) 0 = some path ∧
      get_nodes [(0 : ℚ), 5, 1] [(0 : ℚ), 0, 0] 0 =
        some (path.map Prod.fst, path.map Prod.snd) ∧
      List.Perm path ([(0 : ℚ), 5, 1].zip [(0 : ℚ), 0, 0]) ∧
      path.length = ([(0 : ℚ), 5, 1].zip [(0 : ℚ), 0, 0]).length ∧
      (∀ p : Pt, path.countP (fun q => q = p) =
        (([(0 : ℚ), 5, 1].zip [(0 : ℚ), 0, 0]).countP (fun q => q = p))) ∧
      ([(0 : ℚ), 5, 1].zip [(0 : ℚ), 0, 0] = [] →
        get_nodes [(0 : ℚ), 5, 1] [(0 : ℚ), 0, 0] 0 = some ([], [])) ∧
      (∀ p : Pt, [(0 : ℚ), 5, 1].zip [(0 : ℚ), 0, 0] = [p] →
        get_nodes [(0 : ℚ), 5, 1] [(0 : ℚ), 0, 0] 0 = some ([p.1], [p.2])) :=
  get_nodes_is_permutation [0, 5, 1] [0, 0, 0] 0 (by decide)

theorem isfinite_not_isnan {a : PyFloat} (h : a.isfinite = true) :
    a.isnan = false := by
  cases a <;> simp_all [PyFloat.isfinite, PyFloat.isnan]

/-- C6: for a point set whose coordinates are all finite (and whose `x`/`y`
lists have equal length, as any well-formed point set does),
`set_state (get_state p)` reproduces `p` exactly: the `x` list, `y` list,
origin index and exclusion list are all preserved. -/
theorem set_state_get_state_roundtrip (p : PointsF)
    (hlen : p.x.length = p.y.length)
    (hx : ∀ a ∈ p.x, a.isfinite = true) (hy : ∀ b ∈ p.y, b.isfinite = true) :
    set_state (get_state p) = some p := by
  have hfilter : (p.x.zip p.y).filter (fun ab => !(ab.1.isnan || ab.2.isnan))
      = p.x.zip p.y := by
    apply List.filter_eq_self.mpr
    intro ab hab
    obtain ⟨ha, hb⟩ := List.of_mem_zip hab
    rw [isfinite_not_isnan (hx _ ha), isfinite_not_isnan (hy _ hb)]
    rfl
  simp only [set_state, get_state, hlen, if_true, hfilter]
  have h1 : (p.x.zip p.y).map Prod.fst = p.x :=
    List.map_fst_zip p.x p.y (le_of_eq hlen)
  have h2 : (p.x.zip p.y).map Prod.snd = p.y :=
    List.map_snd_zip p.x p.y (ge_of_eq hlen)
  simp [h1, h2]

/-- Witness for C6 at a concrete point set. -/
theorem set_state_get_state_roundtrip_witness :
    set_state (get_state ⟨[.val 1, .val 2], [.val 3, .val 4], 1,
        [((.val 0, .val 0), (.val 1, .val 1))]⟩) =
      some ⟨[.val 1, .val 2], [.val 3, .val 4], 1,
        [((.val 0, .val 0), (.val 1, .val 1))]⟩ :=
  set_state_get_state_roundtrip _ (by decide) (by decide) (by decide)

/-- C3 counterexample: the claim says `set_state` drops every pair in which
either coordinate is non-finite, but the source masks with `np.isnan` only, so
the pair `(inf, 0)` — whose first coordinate is not finite — is retained. -/
theorem set_state_keeps_infinite_counterexample :
    set_state ⟨[PyFloat.inf], [PyFloat.val 0], some 0, some []⟩ =
      some ⟨[PyFloat.inf], [PyFloat.val 0], 0, []⟩ ∧
    PyFloat.isfinite PyFloat.inf = false := by
  constructor
  · rfl
  · rfl

/-- C3 (amended): `set_state` and `set_nodes` drop exactly the pairs in which
either coordinate is NaN (pairs with infinite coordinates are kept), storing
the remaining pairs in input order; in particular
`x = [1, NaN, 3], y = [1, 2, NaN]` stores only the pair `(1, 1)`. -/
theorem set_state_drops_nan (s : PointsStateD) (x y : List PyFloat)
    (hs : s.x.length = s.y.length) (hxy : x.length = y.length) (hx : x ≠ []) :
    (∃ p, set_state s = some p ∧
      p.x.zip p.y = (s.x.zip s.y).filter (fun ab => !(ab.1.isnan || ab.2.isnan)) ∧
      p.origin = s.origin.getD 0 ∧ p.exclude = s.exclude.getD []) ∧
    (set_nodes x y =
      some (((x.zip y).filter (fun ab => !(ab.1.isnan || ab.2.isnan))).map Prod.fst,
            ((x.zip y).filter (fun ab => !(ab.1.isnan || ab.2.isnan))).map Prod.snd)) ∧
    set_state ⟨[.val 1, .nan, .val 3], [.val 1, .val 2, .nan], none, none⟩ =
      some ⟨[.val 1], [.val 1], 0, []⟩ := by
  have hset : set_state s = some
      { x := ((s.x.zip s.y).filter (fun ab => !(ab.1.isnan || ab.2.isnan))).map Prod.fst,
        y := ((s.x.zip s.y).filter (fun ab => !(ab.1.isnan || ab.2.isnan))).map Prod.snd,
        origin := s.origin.getD 0, exclude := s.exclude.getD [] } := by
    simp [set_state, hs]
  refine ⟨⟨_, hset, ?_, rfl, rfl⟩, ?_, rfl⟩
  · exact zip_map_fst_snd _
  · have hx0 : ¬ x.length = 0 := by simpa [List.length_eq_zero] using hx
    rw [set_nodes, if_neg hx0, if_pos hxy]

/-- Witness for C3 (amended) at the claim's own example input. -/
theorem set_state_drops_nan_witness :
    (∃ p, set_state ⟨[.val 1, .nan, .val 3], [.val 1, .val 2, .nan], none, none⟩
        = some p ∧
      p.x.zip p.y = (([PyFloat.val 1, .nan, .val 3]).zip
          ([PyFloat.val 1, .val 2, .nan])).filter
          (fun ab => !(ab.1.isnan || ab.2.isnan)) ∧
      p.origin = (none : Option ℤ).getD 0 ∧
      p.exclude = (none : Option (List AnchorF)).getD []) ∧
    (set_nodes [PyFloat.val 1, .nan] [PyFloat.val 2, .val 3] =
      some (((([PyFloat.val 1, .nan]).zip ([PyFloat.val 2, .val 3])).filter
          (fun ab => !(ab.1.isnan || ab.2.isnan))).map Prod.fst,
            ((([PyFloat.val 1, .nan]).zip ([PyFloat.val 2, .val 3])).filter
          (fun ab => !(ab.1.isnan || ab.2.isnan))).map Prod.snd)) ∧
    set_state ⟨[.val 1, .nan, .val 3], [.val 1, .val 2, .nan], none, none⟩ =
      some ⟨[.val 1], [.val 1], 0, []⟩ :=
  set_state_drops_nan _ _ _ (by decide) (by decide) (by decide)

theorem find_node_isSome_iff (p : PointsQ) (qx qy t : ℚ) :
    (find_node p qx qy t).isSome = true ↔
      ∃ n ∈ p.x.zip p.y, dist2 n (qx, qy) < t ^ 2 := by
  rw [find_node]
  by_cases hd : (p.x.zip p.y).map (fun n => dist2 n (qx, qy)) = []
  · rw [if_pos hd]
    have hzip : p.x.zip p.y = [] := by
      cases hz : p.x.zip p.y with
      | nil => rfl
      | cons a l => rw [hz] at hd; simp at hd
    simp [hzip]
  · rw [if_neg hd]
    have hlen : 0 < (p.x.zip p.y).length := by
      cases hz : p.x.zip p.y with
      | nil => rw [hz] at hd; simp at hd
      | cons a l => simp
    have hbound :
        argminIdx ((p.x.zip p.y).map fun n => dist2 n (qx, qy)) <
          (p.x.zip p.y).length := by
      have := argminIdx_lt_length _ hd
      simpa using this
    have hval :
        ((p.x.zip p.y).map fun n => dist2 n (qx, qy)).getD
            (argminIdx ((p.x.zip p.y).map fun n => dist2 n (qx, qy))) 0 =
          dist2 ((p.x.zip p.y).get ⟨argminIdx ((p.x.zip p.y).map fun n =>
            dist2 n (qx, qy)), hbound⟩) (qx, qy) := by
      rw [List.getD_eq_getElem _ _ (by simpa using hbound)]
      exact List.getElem_map _
    by_cases hlt :
        ((p.x.zip p.y).map fun n => dist2 n (qx, qy)).getD
          (argminIdx ((p.x.zip p.y).map fun n => dist2 n (qx, qy))) 0 < t ^ 2
    · rw [if_pos hlt]
      simp only [Option.isSome_some, true_iff]
      refine ⟨_, List.getElem_mem hbound, ?_⟩
      rw [hval] at hlt
      exact hlt
    · rw [if_neg hlt]
      simp only [Option.isSome_none, Bool.false_eq_true, false_iff]
      rintro ⟨n, hn, hnlt⟩
      obtain ⟨j, hj, hjeq⟩ := List.mem_iff_getElem.mp hn
      have hj2 : j < ((p.x.zip p.y).map fun n => dist2 n (qx, qy)).length := by
        simpa using hj
      have hmin := argminIdx_min ((p.x.zip p.y).map fun n => dist2 n (qx, qy)) j hj2
      rw [hval] at hmin
      rw [List.getD_eq_getElem _ _ hj2, List.getElem_map, hjeq] at hmin
      rw [hval] at hlt
      exact hlt (lt_of_le_of_lt hmin hnlt)

/-- C10: for every point set and finite query point, if some existing node
lies strictly within `hit_threshold` Euclidean distance of the query (for a
positive threshold, `dist² < threshold²`), `Points.add_node` leaves the point
set entirely unchanged — x, y, origin and exclude all as before; otherwise it
appends the query as a new node (and re-snaps the exclusions against the new
curve, leaving the origin untouched). -/
theorem add_node_hit_unchanged (curve : List Pt) (p : PointsQ) (qx qy t : ℚ)
    (_hlen : p.x.length = p.y.length) (_ht : 0 < t) :
    ((∃ n ∈ p.x.zip p.y, dist2 n (qx, qy) < t ^ 2) →
      add_node curve p qx qy t = p) ∧
    ((∀ n ∈ p.x.zip p.y, ¬ dist2 n (qx, qy) < t ^ 2) →
      (add_node curve p qx qy t).x = p.x ++ [qx] ∧
      (add_node curve p qx qy t).y = p.y ++ [qy] ∧
      (add_node curve p qx qy t).origin = p.origin ∧
      (add_node curve p qx qy t).exclude = update_exclude curve p.exclude) := by
  constructor
  · intro hex
    have hsome : (find_node p qx qy t).isSome = true :=
      (find_node_isSome_iff p qx qy t).mpr hex
    rw [add_node, if_pos hsome]
  · intro hall
    have hnone : ¬ (find_node p qx qy t).isSome = true := by
      rw [find_node_isSome_iff]
      rintro ⟨n, hn, hnlt⟩
      exact hall n hn hnlt
    rw [add_node, if_neg hnone]
    exact ⟨rfl, rfl, rfl, rfl⟩

/-- Witness for C10: a one-node point set with the query far away (append
branch) and the hypotheses discharged concretely. -/
theorem add_node_hit_unchanged_witness :
    ((∃ n ∈ ([(0 : ℚ)].zip [(0 : ℚ)]), dist2 n (5, 5) < (1 : ℚ) ^ 2) →
      add_node [] ⟨[0], [0], 0, []⟩ 5 5 1 = ⟨[0], [0], 0, []⟩) ∧
    ((∀ n ∈ ([(0 : ℚ)].zip [(0 : ℚ)]), ¬ dist2 n (5, 5) < (1 : ℚ) ^ 2) →
      (add_node [] ⟨[0], [0], 0, []⟩ 5 5 1).x = [0] ++ [5] ∧
      (add_node [] ⟨[0], [0], 0, []⟩ 5 5 1).y = [0] ++ [5] ∧
      (add_node [] ⟨[0], [0], 0, []⟩ 5 5 1).origin = 0 ∧
      (add_node [] ⟨[0], [0], 0, []⟩ 5 5 1).exclude = update_exclude [] []) :=
  add_node_hit_unchanged [] ⟨[0], [0], 0, []⟩ 5 5 1 (by decide) (by decide)

/-! ## Interval lemmas -/

theorem covers_cons {α : Type} [LinearOrder α] (p : α × α) (l : List (α × α))
    (q : α) :
    covers (p :: l) q ↔ (p.1 ≤ q ∧ q ≤ p.2) ∨ covers l q := by
  simp [covers]

theorem chain'_head_le {α : Type} [LinearOrder α] {a : α} {t : List α}
    (h : List.Chain' (· ≤ ·) (a :: t)) : ∀ x ∈ t, a ≤ x := by
  induction t generalizing a with
  | nil =>
    intro x hx
    simp at hx
  | cons b t ih =>
    intro x hx
    have hab : a ≤ b := (List.chain'_cons.mp h).1
    rcases List.mem_cons.mp hx with rfl | hx
    · exact hab
    · exact le_trans hab (ih (List.chain'_cons.mp h).2 x hx)

/-- In a sorted list at most `i` entries are smaller than the entry at
index `i`. -/
theorem sorted_countP_lt_le {α : Type} [LinearOrder α] (ss : List α)
    (hss : List.Chain' (· ≤ ·) ss) (i : ℕ) (hi : i < ss.length) :
    ss.countP (fun s => decide (s < ss[i])) ≤ i := by
  induction ss generalizing i with
  | nil => simp at hi
  | cons a t ih =>
    match i with
    | 0 =>
      simp only [List.getElem_cons_zero, List.countP_cons]
      have h1 : t.countP (fun s => decide (s < a)) = 0 := by
        rw [List.countP_eq_zero]
        intro x hx
        simpa using not_lt_of_le (chain'_head_le hss x hx)
      simp [h1]
    | i + 1 =>
      simp only [List.getElem_cons_succ, List.countP_cons]
      have ht : List.Chain' (· ≤ ·) t := hss.tail
      have hi2 : i < t.length := by simpa using hi
      have h1 := ih ht i hi2
      by_cases ha : a < t[i] <;> simp [ha] <;> omega

/-- In a sorted list, if the entry at index `i` is smaller than `x`, then at
least `i + 1` entries are smaller than `x`. -/
theorem sorted_countP_lt_ge {α : Type} [LinearOrder α] (es : List α)
    (hes : List.Chain' (· ≤ ·) es) (i : ℕ) (hi : i < es.length) (x : α)
    (hx : es[i] < x) :
    i + 1 ≤ es.countP (fun e => decide (e < x)) := by
  induction es generalizing i with
  | nil => simp at hi
  | cons b t ih =>
    match i with
    | 0 =>
      rw [List.countP_cons]
      have hb : decide (b < x) = true := by
        simpa using hx
      simp [hb]
    | i + 1 =>
      rw [List.countP_cons]
      have ht : List.Chain' (· ≤ ·) t := hes.tail
      have hi2 : i < t.length := by simpa using hi
      have hti : t[i] < x := by simpa using hx
      have h1 := ih ht i hi2 hti
      have hb : b < x :=
        lt_of_le_of_lt (chain'_head_le hes t[i] (List.getElem_mem hi2)) hti
      simp [hb]
      omega

/-- Every valid interval has `start ≤ q` or `q ≤ end` (or both). -/
theorem count_components_ge {α : Type} [LinearOrder α] (l : List (α × α))
    (hv : ∀ p ∈ l, p.1 ≤ p.2) (q : α) :
    l.length ≤ l.countP (fun p => decide (p.1 ≤ q)) +
      l.countP (fun p => decide (q ≤ p.2)) := by
  induction l with
  | nil => simp
  | cons a t ih =>
    rw [List.countP_cons, List.countP_cons, List.length_cons]
    have ht := ih fun p hp => hv p (List.mem_cons_of_mem a hp)
    have ha := hv a (List.mem_cons_self a t)
    by_cases h1 : a.1 ≤ q
    · simp [h1]
      omega
    · have h2 : q ≤ a.2 := le_trans (le_of_lt (lt_of_not_le h1)) ha
      simp [h1, h2]
      omega

/-- Pigeonhole: a point is covered iff strictly more than `l.length`
component predicates hold. -/
theorem covers_iff_count {α : Type} [LinearOrder α] (l : List (α × α))
    (hv : ∀ p ∈ l, p.1 ≤ p.2) (q : α) :
    covers l q ↔ l.length < l.countP (fun p => decide (p.1 ≤ q)) +
      l.countP (fun p => decide (q ≤ p.2)) := by
  induction l with
  | nil => simp [covers]
  | cons a t ih =>
    rw [covers_cons, List.countP_cons, List.countP_cons, List.length_cons]
    have ht := ih fun p hp => hv p (List.mem_cons_of_mem a hp)
    have ha := hv a (List.mem_cons_self a t)
    have hge := count_components_ge t (fun p hp => hv p (List.mem_cons_of_mem a hp)) q
    by_cases h1 : a.1 ≤ q
    · by_cases h2 : q ≤ a.2
      · simp [h1, h2]
        omega
      · simp [h1, h2, ht]
        omega
    · have h2 : q ≤ a.2 := le_trans (le_of_lt (lt_of_not_le h1)) ha
      simp [h1, h2, ht]
      omega

theorem countP_zip_fst {α : Type} [LinearOrder α] (ss es : List α)
    (h : ss.length = es.length) (q : α) :
    (ss.zip es).countP (fun pr => decide (pr.1 ≤ q)) =
      ss.countP (fun s => decide (s ≤ q)) := by
  conv_rhs => rw [← List.map_fst_zip ss es (le_of_eq h)]
  rw [List.countP_map]
  rfl

theorem countP_zip_snd {α : Type} [LinearOrder α] (ss es : List α)
    (h : ss.length = es.length) (q : α) :
    (ss.zip es).countP (fun pr => decide (q ≤ pr.2)) =
      es.countP (fun e => decide (q ≤ e)) := by
  conv_rhs => rw [← List.map_snd_zip ss es (ge_of_eq h)]
  rw [List.countP_map]
  rfl

theorem chain'_insertionSort {α : Type} [LinearOrder α] (l : List α) :
    List.Chain' (· ≤ ·) (l.insertionSort (· ≤ ·)) :=
  List.chain'_iff_pairwise.mpr (List.sorted_insertionSort (· ≤ ·) l)

/-- For equal-length sorted columns with a valid pairing, a point is covered
by the paired intervals iff the component counts exceed the length. -/
theorem covers_zip_count {α : Type} [LinearOrder α] (ss : List α) :
    ∀ es : List α, ss.length = es.length →
      List.Chain' (· ≤ ·) ss → List.Chain' (· ≤ ·) es →
      (∀ pr ∈ ss.zip es, pr.1 ≤ pr.2) → ∀ q : α,
      (covers (ss.zip es) q ↔
        (ss.zip es).length <
          ss.countP (fun s => decide (s ≤ q)) +
            es.countP (fun e => decide (q ≤ e))) := by
  induction ss with
  | nil =>
    intro es hlen _ _ _ q
    match es with
    | [] => simp [covers]
    | b :: es => simp at hlen
  | cons a ss ih =>
    intro es hlen hss hes hv q
    match es with
    | [] => simp at hlen
    | b :: es =>
      have hlen2 : ss.length = es.length := by simpa using hlen
      have hss2 := hss.tail
      have hes2 := hes.tail
      have hv2 : ∀ pr ∈ ss.zip es, pr.1 ≤ pr.2 := fun pr hpr =>
        hv pr (List.mem_cons_of_mem _ hpr)
      have hzlen : (ss.zip es).length = ss.length := by
        rw [List.length_zip, hlen2, min_self]
      have iht := ih es hlen2 hss2 hes2 hv2 q
      rw [List.zip_cons_cons, covers_cons, List.countP_cons, List.countP_cons,
        List.length_cons]
      by_cases h1 : a ≤ q
      · by_cases h2 : q ≤ b
        · have hge := count_components_ge (ss.zip es) hv2 q
          rw [countP_zip_fst ss es hlen2 q, countP_zip_snd ss es hlen2 q] at hge
          simp [h1, h2]
          omega
        · simp [h1, h2, iht]
          omega
      · have hq : q < a := lt_of_not_le h1
        have hA0 : ss.countP (fun s => decide (s ≤ q)) = 0 := by
          rw [List.countP_eq_zero]
          intro x hx
          simpa using not_le_of_lt (lt_of_lt_of_le hq (chain'_head_le hss x hx))
        have hcov : ¬ covers (ss.zip es) q := by
          rintro ⟨pr, hpr, hp1, hp2⟩
          have hle : a ≤ pr.1 := chain'_head_le hss _ (List.of_mem_zip hpr).1
          exact absurd (le_trans hle hp1) (not_le_of_lt hq)
        have hBle := List.countP_le_length (fun e => decide (q ≤ e)) (l := es)
        by_cases h2 : q ≤ b <;> simp [h1, h2, hcov, hA0] <;> omega

/-- Pairing the independently sorted start and end columns of a valid
interval list yields valid pairs: the i-th smallest start is ≤ the i-th
smallest end. -/
theorem zip_sorted_valid {α : Type} [LinearOrder α] (l : List (α × α))
    (hv : ∀ p ∈ l, p.1 ≤ p.2) :
    ∀ pr ∈ ((l.map Prod.fst).insertionSort (· ≤ ·)).zip
        ((l.map Prod.snd).insertionSort (· ≤ ·)), pr.1 ≤ pr.2 := by
  intro pr hpr
  have hlen : ((l.map Prod.fst).insertionSort (· ≤ ·)).length =
      ((l.map Prod.snd).insertionSort (· ≤ ·)).length := by
    simp [List.length_insertionSort]
  obtain ⟨i, hi, hieq⟩ := List.mem_iff_getElem.mp hpr
  have hi1 : i < ((l.map Prod.fst).insertionSort (· ≤ ·)).length := by
    rw [List.length_zip] at hi
    omega
  have hi2 : i < ((l.map Prod.snd).insertionSort (· ≤ ·)).length := by
    rw [List.length_zip] at hi
    omega
  rw [List.getElem_zip] at hieq
  by_contra hcon
  rw [← hieq] at hcon
  simp only [not_le] at hcon
  have h3 := sorted_countP_lt_ge _ (chain'_insertionSort (l.map Prod.snd)) i hi2
    _ hcon
  have h4 : ((l.map Prod.snd).insertionSort (· ≤ ·)).countP
        (fun e => decide (e < ((l.map Prod.fst).insertionSort (· ≤ ·))[i])) =
      l.countP (fun p => decide (p.2 < ((l.map Prod.fst).insertionSort (· ≤ ·))[i])) := by
    rw [(List.perm_insertionSort (· ≤ ·) (l.map Prod.snd)).countP_eq, List.countP_map]
    rfl
  have h6 : l.countP (fun p => decide (p.2 < ((l.map Prod.fst).insertionSort (· ≤ ·))[i])) ≤
      l.countP (fun p => decide (p.1 < ((l.map Prod.fst).insertionSort (· ≤ ·))[i])) := by
    apply List.countP_mono_left
    intro p hp hdec
    simp only [decide_eq_true_eq] at hdec ⊢
    exact lt_of_le_of_lt (hv p hp) hdec
  have h7 : l.countP (fun p => decide (p.1 < ((l.map Prod.fst).insertionSort (· ≤ ·))[i])) =
      ((l.map Prod.fst).insertionSort (· ≤ ·)).countP
        (fun s => decide (s < ((l.map Prod.fst).insertionSort (· ≤ ·))[i])) := by
    rw [(List.perm_insertionSort (· ≤ ·) (l.map Prod.fst)).countP_eq, List.countP_map]
    rfl
  have h8 := sorted_countP_lt_le _ (chain'_insertionSort (l.map Prod.fst)) i hi1
  omega

/-- Correctness of the absorbing scan on a column-sorted remainder: the
output starts at `lb`, is separated and valid, and covers exactly
`[lb, ub] ∪ ⋃ R`. -/
theorem mergeAbsorb_spec {α : Type} [LinearOrder α] (R : List (α × α)) :
    ∀ lb ub : α, lb ≤ ub →
      (∀ pr ∈ R, lb ≤ pr.1) → (∀ pr ∈ R, ub ≤ pr.2) →
      List.Chain' (· ≤ ·) (R.map Prod.fst) →
      List.Chain' (· ≤ ·) (R.map Prod.snd) →
      (∀ pr ∈ R, pr.1 ≤ pr.2) →
      ∃ ub2 rest2, mergeAbsorb lb ub R = (lb, ub2) :: rest2 ∧ ub ≤ ub2 ∧
        separated (mergeAbsorb lb ub R) ∧
        (∀ pr ∈ mergeAbsorb lb ub R, pr.1 ≤ pr.2) ∧
        (∀ q, covers (mergeAbsorb lb ub R) q ↔
          (lb ≤ q ∧ q ≤ ub) ∨ covers R q) := by
  induction R with
  | nil =>
    intro lb ub hlbub _ _ _ _ _
    refine ⟨ub, [], rfl, le_refl ub, ?_, ?_, ?_⟩
    · exact List.chain'_singleton _
    · intro pr hpr
      rcases List.mem_singleton.mp hpr with rfl
      exact hlbub
    · intro q
      simp [mergeAbsorb, covers]
  | cons se R ih =>
    intro lb ub hlbub hlb hub hchf hchs hval
    obtain ⟨s, e⟩ := se
    have hs : lb ≤ s := hlb (s, e) (List.mem_cons_self _ _)
    have he : ub ≤ e := hub (s, e) (List.mem_cons_self _ _)
    have hse : s ≤ e := hval (s, e) (List.mem_cons_self _ _)
    have hlbR : ∀ pr ∈ R, s ≤ pr.1 := by
      intro pr hpr
      exact chain'_head_le hchf pr.1 (List.mem_map_of_mem Prod.fst hpr)
    have hubR : ∀ pr ∈ R, e ≤ pr.2 := by
      intro pr hpr
      exact chain'_head_le hchs pr.2 (List.mem_map_of_mem Prod.snd hpr)
    have hchf2 : List.Chain' (· ≤ ·) (R.map Prod.fst) := hchf.tail
    have hchs2 : List.Chain' (· ≤ ·) (R.map Prod.snd) := hchs.tail
    have hval2 : ∀ pr ∈ R, pr.1 ≤ pr.2 := fun pr hpr =>
      hval pr (List.mem_cons_of_mem _ hpr)
    by_cases hcase : s ≤ ub
    · -- absorb: continue with end `e`
      have hlbR2 : ∀ pr ∈ R, lb ≤ pr.1 := fun pr hpr =>
        le_trans hs (hlbR pr hpr)
      obtain ⟨ub2, rest2, heq, hle2, hsep2, hvalid2, hcov2⟩ :=
        ih lb e (le_trans hlbub he) hlbR2 hubR hchf2 hchs2 hval2
      have habs : mergeAbsorb lb ub ((s, e) :: R) = mergeAbsorb lb e R := by
        rw [mergeAbsorb, if_pos hcase]
      rw [habs]
      refine ⟨ub2, rest2, heq, le_trans he hle2, hsep2, hvalid2, ?_⟩
      intro q
      rw [hcov2 q, covers_cons]
      constructor
      · rintro (⟨hq1, hq2⟩ | hq)
        · by_cases hq3 : q ≤ ub
          · exact Or.inl ⟨hq1, hq3⟩
          · exact Or.inr (Or.inl ⟨le_trans hcase (le_of_lt (lt_of_not_le hq3)), hq2⟩)
        · exact Or.inr (Or.inr hq)
      · rintro (⟨hq1, hq2⟩ | ⟨hq1, hq2⟩ | hq)
        · exact Or.inl ⟨hq1, le_trans hq2 he⟩
        · exact Or.inl ⟨le_trans hs hq1, hq2⟩
        · exact Or.inr hq
    · -- emit the current run and start a new one at `(s, e)`
      obtain ⟨ub2, rest2, heq, hle2, hsep2, hvalid2, hcov2⟩ :=
        ih s e hse hlbR hubR hchf2 hchs2 hval2
      have hemit : mergeAbsorb lb ub ((s, e) :: R) =
          (lb, ub) :: mergeAbsorb s e R := by
        rw [mergeAbsorb, if_neg hcase]
      rw [hemit]
      refine ⟨ub, mergeAbsorb s e R, rfl, le_refl ub, ?_, ?_, ?_⟩
      · rw [separated, heq]
        refine List.chain'_cons.mpr ⟨lt_of_not_le hcase, ?_⟩
        rw [separated, heq] at hsep2
        exact hsep2
      · intro pr hpr
        rcases List.mem_cons.mp hpr with rfl | hpr
        · exact hlbub
        · exact hvalid2 pr hpr
      · intro q
        rw [covers_cons, hcov2 q, covers_cons]

/-- Correctness of the outer merge loop on a list whose start and end
columns are both sorted and whose pairs are valid. -/
theorem mergeLoop_spec {α : Type} [LinearOrder α] (L : List (α × α))
    (hchf : List.Chain' (· ≤ ·) (L.map Prod.fst))
    (hchs : List.Chain' (· ≤ ·) (L.map Prod.snd))
    (hval : ∀ pr ∈ L, pr.1 ≤ pr.2) :
    separated (mergeLoop L) ∧ (∀ pr ∈ mergeLoop L, pr.1 ≤ pr.2) ∧
      (∀ q, covers (mergeLoop L) q ↔ covers L q) := by
  match L with
  | [] =>
    refine ⟨List.chain'_nil, ?_, ?_⟩
    · intro pr hpr
      simp [mergeLoop] at hpr
    · intro q
      simp [mergeLoop]
  | (lb, ub) :: R =>
    have hlbub : lb ≤ ub := hval (lb, ub) (List.mem_cons_self _ _)
    have hlbR : ∀ pr ∈ R, lb ≤ pr.1 := by
      intro pr hpr
      exact chain'_head_le hchf pr.1 (List.mem_map_of_mem Prod.fst hpr)
    have hubR : ∀ pr ∈ R, ub ≤ pr.2 := by
      intro pr hpr
      exact chain'_head_le hchs pr.2 (List.mem_map_of_mem Prod.snd hpr)
    obtain ⟨ub2, rest2, heq, hle2, hsep2, hvalid2, hcov2⟩ :=
      mergeAbsorb_spec R lb ub hlbub hlbR hubR hchf.tail hchs.tail
        (fun pr hpr => hval pr (List.mem_cons_of_mem _ hpr))
    have hL : mergeLoop ((lb, ub) :: R) = mergeAbsorb lb ub R := rfl
    rw [hL]
    refine ⟨hsep2, hvalid2, ?_⟩
    intro q
    rw [hcov2 q, covers_cons]

/-- Every endpoint of the absorbing scan's output comes from the initial run
or from the remainder's corresponding column. -/
theorem mergeAbsorb_endpoints {α : Type} [LinearOrder α] (R : List (α × α)) :
    ∀ lb ub : α, ∀ pr ∈ mergeAbsorb lb ub R,
      (pr.1 = lb ∨ pr.1 ∈ R.map Prod.fst) ∧
        (pr.2 = ub ∨ pr.2 ∈ R.map Prod.snd) := by
  induction R with
  | nil =>
    intro lb ub pr hpr
    rcases List.mem_singleton.mp hpr with rfl
    exact ⟨Or.inl rfl, Or.inl rfl⟩
  | cons se R ih =>
    intro lb ub pr hpr
    obtain ⟨s, e⟩ := se
    rw [mergeAbsorb] at hpr
    by_cases hcase : s ≤ ub
    · rw [if_pos hcase] at hpr
      obtain ⟨h1, h2⟩ := ih lb e pr hpr
      refine ⟨?_, ?_⟩
      · rcases h1 with h1 | h1
        · exact Or.inl h1
        · exact Or.inr (List.mem_cons_of_mem _ h1)
      · rcases h2 with h2 | h2
        · exact Or.inr (by simp [h2])
        · exact Or.inr (List.mem_cons_of_mem _ h2)
    · rw [if_neg hcase] at hpr
      rcases List.mem_cons.mp hpr with rfl | hpr
      · exact ⟨Or.inl rfl, Or.inl rfl⟩
      · obtain ⟨h1, h2⟩ := ih s e pr hpr
        refine ⟨?_, ?_⟩
        · rcases h1 with h1 | h1
          · exact Or.inr (by simp [h1])
          · exact Or.inr (List.mem_cons_of_mem _ h1)
        · rcases h2 with h2 | h2
          · exact Or.inr (by simp [h2])
          · exact Or.inr (List.mem_cons_of_mem _ h2)

/-- Endpoints of the merged output come from the input columns. -/
theorem mergeLoop_endpoints {α : Type} [LinearOrder α] (L : List (α × α)) :
    ∀ pr ∈ mergeLoop L, pr.1 ∈ L.map Prod.fst ∧ pr.2 ∈ L.map Prod.snd := by
  match L with
  | [] =>
    intro pr hpr
    simp [mergeLoop] at hpr
  | (lb, ub) :: R =>
    intro pr hpr
    have hL : mergeLoop ((lb, ub) :: R) = mergeAbsorb lb ub R := rfl
    rw [hL] at hpr
    obtain ⟨h1, h2⟩ := mergeAbsorb_endpoints R lb ub pr hpr
    refine ⟨?_, ?_⟩
    · rcases h1 with h1 | h1
      · simp [h1]
      · exact List.mem_cons_of_mem _ h1
    · rcases h2 with h2 | h2
      · simp [h2]
      · exact List.mem_cons_of_mem _ h2

/-- `smooth_epochs` output is separated and valid and covers exactly the
points covered by the input intervals (any linear order). -/
theorem smooth_epochs_spec {α : Type} [LinearOrder α] (l : List (α × α))
    (hv : ∀ p ∈ l, p.1 ≤ p.2) :
    separated (smooth_epochs l) ∧ (∀ pr ∈ smooth_epochs l, pr.1 ≤ pr.2) ∧
      (∀ q, covers (smooth_epochs l) q ↔ covers l q) := by
  have hlen : ((l.map Prod.fst).insertionSort (· ≤ ·)).length =
      ((l.map Prod.snd).insertionSort (· ≤ ·)).length := by
    simp [List.length_insertionSort]
  have hvzip := zip_sorted_valid l hv
  have hchf : List.Chain' (· ≤ ·)
      ((((l.map Prod.fst).insertionSort (· ≤ ·)).zip
        ((l.map Prod.snd).insertionSort (· ≤ ·))).map Prod.fst) := by
    rw [List.map_fst_zip _ _ (le_of_eq hlen)]
    exact chain'_insertionSort _
  have hchs : List.Chain' (· ≤ ·)
      ((((l.map Prod.fst).insertionSort (· ≤ ·)).zip
        ((l.map Prod.snd).insertionSort (· ≤ ·))).map Prod.snd) := by
    rw [List.map_snd_zip _ _ (ge_of_eq hlen)]
    exact chain'_insertionSort _
  obtain ⟨hsep, hvalid, hcov⟩ := mergeLoop_spec _ hchf hchs hvzip
  refine ⟨hsep, hvalid, ?_⟩
  intro q
  have hA : ((l.map Prod.fst).insertionSort (· ≤ ·)).countP
        (fun s => decide (s ≤ q)) = l.countP (fun p => decide (p.1 ≤ q)) := by
    rw [(List.perm_insertionSort (· ≤ ·) (l.map Prod.fst)).countP_eq,
      List.countP_map]
    rfl
  have hB : ((l.map Prod.snd).insertionSort (· ≤ ·)).countP
        (fun e => decide (q ≤ e)) = l.countP (fun p => decide (q ≤ p.2)) := by
    rw [(List.perm_insertionSort (· ≤ ·) (l.map Prod.snd)).countP_eq,
      List.countP_map]
    rfl
  have hzlen : (((l.map Prod.fst).insertionSort (· ≤ ·)).zip
      ((l.map Prod.snd).insertionSort (· ≤ ·))).length = l.length := by
    rw [List.length_zip, hlen, min_self]
    simp [List.length_insertionSort]
  rw [smooth_epochs, hcov q,
    covers_zip_count _ _ hlen (chain'_insertionSort _) (chain'_insertionSort _)
      hvzip q,
    covers_iff_count l hv q, hA, hB, hzlen]

/-- C4: for every list of (valid) index intervals, `smooth_epochs` (used by
`Points.simplify_exclude`) returns sorted, non-overlapping and non-touching
intervals covering exactly the points covered by the input — i.e. any
overlapping or touching input ranges are merged into maximal runs; in
particular merging [[0,5],[3,8],[10,12]] yields [[0,8],[10,12]]. -/
theorem smooth_epochs_merges (l : List (ℚ × ℚ)) (hv : ∀ p ∈ l, p.1 ≤ p.2) :
    separated (smooth_epochs l) ∧ (∀ pr ∈ smooth_epochs l, pr.1 ≤ pr.2) ∧
    (∀ q : ℚ, covers (smooth_epochs l) q ↔ covers l q) ∧
    smooth_epochs [((0 : ℚ), 5), (3, 8), (10, 12)] = [(0, 8), (10, 12)] := by
  obtain ⟨h1, h2, h3⟩ := smooth_epochs_spec l hv
  exact ⟨h1, h2, h3, by decide⟩

/-- Witness for C4 at the claim's own example interval list. -/
theorem smooth_epochs_merges_witness :
    separated (smooth_epochs [((0 : ℚ), 5), (3, 8), (10, 12)]) ∧
    (∀ pr ∈ smooth_epochs [((0 : ℚ), 5), (3, 8), (10, 12)], pr.1 ≤ pr.2) ∧
    (∀ q : ℚ, covers (smooth_epochs [((0 : ℚ), 5), (3, 8), (10, 12)]) q ↔
      covers [((0 : ℚ), 5), (3, 8), (10, 12)] q) ∧
    smooth_epochs [((0 : ℚ), 5), (3, 8), (10, 12)] = [(0, 8), (10, 12)] :=
  smooth_epochs_merges [((0 : ℚ), 5), (3, 8), (10, 12)] (by decide)

theorem remove_first_none {β : Type} (f : β → Bool) (l : List β)
    (h : ∀ a ∈ l, f a = false) : remove_first f l = l := by
  induction l with
  | nil => rfl
  | cons a t ih =>
    rw [remove_first]
    rw [h a (List.mem_cons_self a t)]
    simp only [Bool.false_eq_true, if_false]
    rw [ih fun b hb => h b (List.mem_cons_of_mem a hb)]

theorem remove_first_found {β : Type} (f : β → Bool) (l : List β)
    (h : ∃ a ∈ l, f a = true) :
    ∃ pre m suf, l = pre ++ m :: suf ∧ f m = true ∧
      (∀ a ∈ pre, f a = false) ∧ remove_first f l = pre ++ suf := by
  induction l with
  | nil => simp at h
  | cons a t ih =>
    by_cases hf : f a = true
    · refine ⟨[], a, t, rfl, hf, by simp, ?_⟩
      rw [remove_first, hf]
      simp
    · have hf2 : f a = false := by simpa using hf
      obtain ⟨b, hb, hbt⟩ := h
      have hbt2 : ∃ c ∈ t, f c = true := by
        rcases List.mem_cons.mp hb with rfl | hb2
        · exact absurd hbt hf
        · exact ⟨b, hb2, hbt⟩
      obtain ⟨pre, m, suf, heq, hm, hpre, hrm⟩ := ih hbt2
      refine ⟨a :: pre, m, suf, by rw [heq, List.cons_append], hm, ?_, ?_⟩
      · intro c hc
        rcases List.mem_cons.mp hc with rfl | hc2
        · exact hf2
        · exact hpre c hc2
      · rw [remove_first, hf2]
        simp only [Bool.false_eq_true, if_false]
        rw [hrm, List.cons_append]

/-- C9: with an interpolable (hence nonempty sampled) curve,
`Points.remove_exclude` deletes exactly the first stored interval whose
snapped index range contains the curve index nearest to the query point, and
leaves the exclusion list unchanged when no stored interval's range contains
that index; a single call never removes more than one interval. -/
theorem remove_exclude_spec (curve : List Pt) (q : Pt) (ex : List (Pt × Pt))
    (_hcurve : curve ≠ []) :
    ((∀ se ∈ ex, exclude_contains curve (argnearest q curve) se = false) →
      remove_exclude curve q ex = ex) ∧
    ((∃ se ∈ ex, exclude_contains curve (argnearest q curve) se = true) →
      ∃ pre m suf, ex = pre ++ m :: suf ∧
        exclude_contains curve (argnearest q curve) m = true ∧
        (∀ a ∈ pre, exclude_contains curve (argnearest q curve) a = false) ∧
        remove_exclude curve q ex = pre ++ suf ∧
        (remove_exclude curve q ex).length + 1 = ex.length) := by
  constructor
  · intro hall
    exact remove_first_none _ ex hall
  · intro hex
    obtain ⟨pre, m, suf, heq, hm, hpre, hrm⟩ :=
      remove_first_found (exclude_contains curve (argnearest q curve)) ex hex
    refine ⟨pre, m, suf, heq, hm, hpre, hrm, ?_⟩
    rw [remove_exclude, hrm, heq]
    simp
    omega

/-- Witness for C9: one stored interval whose snapped range contains the
snapped query index; it is removed. -/
theorem remove_exclude_spec_witness :
    ((∀ se ∈ [(((0 : ℚ), (0 : ℚ)), ((1 : ℚ), (0 : ℚ)))],
        exclude_contains [((0 : ℚ), 0), (1, 0)]
          (argnearest (0, 0) [((0 : ℚ), 0), (1, 0)]) se = false) →
      remove_exclude [((0 : ℚ), 0), (1, 0)] (0, 0)
        [(((0 : ℚ), (0 : ℚ)), ((1 : ℚ), (0 : ℚ)))] =
        [(((0 : ℚ), (0 : ℚ)), ((1 : ℚ), (0 : ℚ)))]) ∧
    ((∃ se ∈ [(((0 : ℚ), (0 : ℚ)), ((1 : ℚ), (0 : ℚ)))],
        exclude_contains [((0 : ℚ), 0), (1, 0)]
          (argnearest (0, 0) [((0 : ℚ), 0), (1, 0)]) se = true) →
      ∃ pre m suf, [(((0 : ℚ), (0 : ℚ)), ((1 : ℚ), (0 : ℚ)))] = pre ++ m :: suf ∧
        exclude_contains [((0 : ℚ), 0), (1, 0)]
          (argnearest (0, 0) [((0 : ℚ), 0), (1, 0)]) m = true ∧
        (∀ a ∈ pre, exclude_contains [((0 : ℚ), 0), (1, 0)]
          (argnearest (0, 0) [((0 : ℚ), 0), (1, 0)]) a = false) ∧
        remove_exclude [((0 : ℚ), 0), (1, 0)] (0, 0)
          [(((0 : ℚ), (0 : ℚ)), ((1 : ℚ), (0 : ℚ)))] = pre ++ suf ∧
        (remove_exclude [((0 : ℚ), 0), (1, 0)] (0, 0)
          [(((0 : ℚ), (0 : ℚ)), ((1 : ℚ), (0 : ℚ)))]).length + 1 =
          [(((0 : ℚ), (0 : ℚ)), ((1 : ℚ), (0 : ℚ)))].length) :=
  remove_exclude_spec [((0 : ℚ), 0), (1, 0)] (0, 0)
    [(((0 : ℚ), (0 : ℚ)), ((1 : ℚ), (0 : ℚ)))] (by decide)

theorem dist2_self (p : Pt) : dist2 p p = 0 := by
  simp [dist2]

theorem dist2_nonneg (p q : Pt) : 0 ≤ dist2 p q := by
  rw [dist2]
  positivity

theorem dist2_eq_zero_iff {p q : Pt} : dist2 p q = 0 ↔ p = q := by
  constructor
  · intro h
    rw [dist2] at h
    have h1 : (p.1 - q.1) ^ 2 = 0 := by
      nlinarith [sq_nonneg (p.1 - q.1), sq_nonneg (p.2 - q.2)]
    have h2 : (p.2 - q.2) ^ 2 = 0 := by
      nlinarith [sq_nonneg (p.1 - q.1), sq_nonneg (p.2 - q.2)]
    have e1 : p.1 = q.1 := sub_eq_zero.mp (sq_eq_zero_iff.mp h1)
    have e2 : p.2 = q.2 := sub_eq_zero.mp (sq_eq_zero_iff.mp h2)
    exact Prod.ext e1 e2
  · intro h
    rw [h]
    exact dist2_self q

/-- On a duplicate-free curve, snapping an exact curve sample returns its own
index. -/
theorem argnearest_self (curve : List Pt) (hnd : curve.Nodup) (k : ℕ)
    (hk : k < curve.length) : argnearest curve[k] curve = k := by
  rw [argnearest]
  have hmaplen : (curve.map fun c => dist2 c curve[k]).length = curve.length := by
    simp
  have hne : (curve.map fun c => dist2 c curve[k]) ≠ [] := by
    intro hcon
    rw [hcon] at hmaplen
    simp at hmaplen
    omega
  have hlt := argminIdx_lt_length _ hne
  rw [hmaplen] at hlt
  have hmin := argminIdx_min (curve.map fun c => dist2 c curve[k]) k
    (by rw [hmaplen]; exact hk)
  have hdk : (curve.map fun c => dist2 c curve[k]).getD k 0 = 0 := by
    rw [List.getD_eq_getElem _ _ (by rw [hmaplen]; exact hk), List.getElem_map]
    exact dist2_self _
  rw [hdk] at hmin
  have hdmin : (curve.map fun c => dist2 c curve[k]).getD
      (argminIdx (curve.map fun c => dist2 c curve[k])) 0 =
      dist2 (curve.get ⟨argminIdx (curve.map fun c => dist2 c curve[k]), hlt⟩)
        curve[k] := by
    rw [List.getD_eq_getElem _ _ (by rw [hmaplen]; exact hlt)]
    exact List.getElem_map _
  rw [hdmin] at hmin
  have h0 : dist2 (curve.get ⟨argminIdx (curve.map fun c => dist2 c curve[k]), hlt⟩)
      curve[k] = 0 := le_antisymm hmin (dist2_nonneg _ _)
  exact (List.Nodup.getElem_inj_iff hnd).mp (dist2_eq_zero_iff.mp h0)

/-- Every `argnearest` result is a valid curve index (nonempty curve). -/
theorem argnearest_lt_length (p : Pt) (curve : List Pt) (h : curve ≠ []) :
    argnearest p curve < curve.length := by
  rw [argnearest]
  have hne : (curve.map fun c => dist2 c p) ≠ [] := by
    intro hcon
    exact h (List.map_eq_nil_iff.mp hcon)
  have := argminIdx_lt_length _ hne
  simpa using this

theorem sep_chain_fst {α : Type} [LinearOrder α] (l : List (α × α))
    (hsep : separated l) (hv : ∀ p ∈ l, p.1 ≤ p.2) :
    List.Chain' (· ≤ ·) (l.map Prod.fst) := by
  induction l with
  | nil => simp
  | cons a t ih =>
    match t with
    | [] => simp
    | b :: t2 =>
      have hab : a.2 < b.1 := (List.chain'_cons.mp hsep).1
      have ha : a.1 ≤ a.2 := hv a (List.mem_cons_self _ _)
      refine List.chain'_cons.mpr ⟨le_trans ha (le_of_lt hab), ?_⟩
      exact ih (List.chain'_cons.mp hsep).2
        (fun p hp => hv p (List.mem_cons_of_mem _ hp))

theorem sep_chain_snd {α : Type} [LinearOrder α] (l : List (α × α))
    (hsep : separated l) (hv : ∀ p ∈ l, p.1 ≤ p.2) :
    List.Chain' (· ≤ ·) (l.map Prod.snd) := by
  induction l with
  | nil => simp
  | cons a t ih =>
    match t with
    | [] => simp
    | b :: t2 =>
      have hab : a.2 < b.1 := (List.chain'_cons.mp hsep).1
      have hb : b.1 ≤ b.2 := hv b (List.mem_cons_of_mem _ (List.mem_cons_self _ _))
      refine List.chain'_cons.mpr ⟨le_trans (le_of_lt hab) hb, ?_⟩
      exact ih (List.chain'_cons.mp hsep).2
        (fun p hp => hv p (List.mem_cons_of_mem _ hp))

theorem mergeLoop_fixed {α : Type} [LinearOrder α] (l : List (α × α))
    (hsep : separated l) : mergeLoop l = l := by
  induction l with
  | nil => rfl
  | cons a t ih =>
    obtain ⟨lb, ub⟩ := a
    match t with
    | [] => rfl
    | (s, e) :: t2 =>
      have hub : ub < s := (List.chain'_cons.mp hsep).1
      have h1 : mergeLoop (((lb, ub)) :: (s, e) :: t2) =
          (lb, ub) :: mergeAbsorb s e t2 := by
        rw [mergeLoop, mergeAbsorb, if_neg (not_le_of_lt hub)]
      rw [h1]
      have h2 : mergeAbsorb s e t2 = mergeLoop ((s, e) :: t2) := rfl
      rw [h2, ih (List.chain'_cons.mp hsep).2]

/-- `smooth_epochs` is the identity on an already separated, valid list. -/
theorem smooth_epochs_fixed {α : Type} [LinearOrder α] (l : List (α × α))
    (hsep : separated l) (hv : ∀ p ∈ l, p.1 ≤ p.2) : smooth_epochs l = l := by
  rw [smooth_epochs,
    List.Sorted.insertionSort_eq (List.chain'_iff_pairwise.mp (sep_chain_fst l hsep hv)),
    List.Sorted.insertionSort_eq (List.chain'_iff_pairwise.mp (sep_chain_snd l hsep hv)),
    zip_map_fst_snd, mergeLoop_fixed l hsep]

/-- C5: `Points.simplify_exclude` is idempotent: with an interpolable curve
(nonempty dense sample, and pairwise distinct samples, as an injectively
parametrised spline yields), simplifying twice equals simplifying once. -/
theorem simplify_exclude_idempotent (curve : List Pt) (ex : List (Pt × Pt))
    (hcurve : curve ≠ []) (hnd : curve.Nodup) :
    simplify_exclude curve (simplify_exclude curve ex) =
      simplify_exclude curve ex := by
  have hvalididx : ∀ pr ∈ ex.map (fun se =>
      (min (argnearest se.1 curve) (argnearest se.2 curve),
       max (argnearest se.1 curve) (argnearest se.2 curve))), pr.1 ≤ pr.2 := by
    intro pr hpr
    obtain ⟨se, _, rfl⟩ := List.mem_map.mp hpr
    exact min_le_max
  obtain ⟨hsep, hvalid, _⟩ := smooth_epochs_spec _ hvalididx
  have hbound : ∀ pr ∈ smooth_epochs (ex.map fun se =>
      (min (argnearest se.1 curve) (argnearest se.2 curve),
       max (argnearest se.1 curve) (argnearest se.2 curve))),
      pr.1 < curve.length ∧ pr.2 < curve.length := by
    intro pr hpr
    rw [smooth_epochs] at hpr
    obtain ⟨hm1, hm2⟩ := mergeLoop_endpoints _ pr hpr
    have hlen : (((ex.map fun se =>
        (min (argnearest se.1 curve) (argnearest se.2 curve),
         max (argnearest se.1 curve) (argnearest se.2 curve))).map
          Prod.fst).insertionSort (· ≤ ·)).length =
        (((ex.map fun se =>
        (min (argnearest se.1 curve) (argnearest se.2 curve),
         max (argnearest se.1 curve) (argnearest se.2 curve))).map
          Prod.snd).insertionSort (· ≤ ·)).length := by
      simp [List.length_insertionSort]
    rw [List.map_fst_zip _ _ (le_of_eq hlen)] at hm1
    rw [List.map_snd_zip _ _ (ge_of_eq hlen)] at hm2
    rw [(List.perm_insertionSort _ _).mem_iff, List.map_map] at hm1 hm2
    obtain ⟨se1, _, he1⟩ := List.mem_map.mp hm1
    obtain ⟨se2, _, he2⟩ := List.mem_map.mp hm2
    constructor
    · rw [← he1]
      simp only [Function.comp_apply]
      exact lt_of_le_of_lt (min_le_left _ _)
        (argnearest_lt_length se1.1 curve hcurve)
    · rw [← he2]
      simp only [Function.comp_apply]
      exact max_lt (argnearest_lt_length se2.1 curve hcurve)
        (argnearest_lt_length se2.2 curve hcurve)
  have key : ((simplify_exclude curve ex).map fun se =>
      (min (argnearest se.1 curve) (argnearest se.2 curve),
       max (argnearest se.1 curve) (argnearest se.2 curve))) =
      smooth_epochs (ex.map fun se =>
        (min (argnearest se.1 curve) (argnearest se.2 curve),
         max (argnearest se.1 curve) (argnearest se.2 curve))) := by
    rw [simplify_exclude, List.map_map]
    refine Eq.trans (List.map_congr_left ?_) (List.map_id _)
    intro pr hpr
    obtain ⟨h1, h2⟩ := hbound pr hpr
    have hv12 := hvalid pr hpr
    simp only [Function.comp_apply, id_eq]
    rw [List.getD_eq_getElem curve (0, 0) h1, List.getD_eq_getElem curve (0, 0) h2]
    rw [argnearest_self curve hnd pr.1 h1, argnearest_self curve hnd pr.2 h2]
    rw [min_eq_left hv12, max_eq_right hv12]
  conv_lhs => rw [simplify_exclude]
  rw [key, smooth_epochs_fixed _ hsep hvalid]
  rw [simplify_exclude]

/-- Witness for C5 on a concrete four-sample curve with two overlapping
stored intervals. -/
theorem simplify_exclude_idempotent_witness :
    simplify_exclude [((0 : ℚ), 0), (1, 0), (2, 0), (3, 0)]
        (simplify_exclude [((0 : ℚ), 0), (1, 0), (2, 0), (3, 0)]
          [(((0 : ℚ), (0 : ℚ)), ((2 : ℚ), (0 : ℚ))),
           (((1 : ℚ), (0 : ℚ)), ((3 : ℚ), (0 : ℚ)))]) =
      simplify_exclude [((0 : ℚ), 0), (1, 0), (2, 0), (3, 0)]
        [(((0 : ℚ), (0 : ℚ)), ((2 : ℚ), (0 : ℚ))),
         (((1 : ℚ), (0 : ℚ)), ((3 : ℚ), (0 : ℚ)))] :=
  simplify_exclude_idempotent [((0 : ℚ), 0), (1, 0), (2, 0), (3, 0)]
    [(((0 : ℚ), (0 : ℚ)), ((2 : ℚ), (0 : ℚ))),
     (((1 : ℚ), (0 : ℚ)), ((3 : ℚ), (0 : ℚ)))] (by decide) (by decide)

end Cochleogram
